/-
Verification of the Trajectory Statistics & Free-Energy Histogram Engine
(ChannelAnalysis repository).

Shallow embedding of:
  * CoordAnalysis/Regex_Grouping.py  : regex_counter, count_totals_to_percents
  * ChannelAnalysis/RotamerAnalysis/Histograms.py :
      compute_dihedral_timeseries, compute_rotamer_histogram,
      compute_rotamer_rotamer_histogram

Python dicts (defaultdicts keyed by trajectory id / state id) are embedded
as association lists preserving insertion order; machine floats are
embedded as exact rationals (reals where a transcendental function such
as log or sqrt is involved).  Fallible code paths (max of an empty
sequence, a failing assert, float division by zero) are embedded with
Except.  The defaultdict read side effect (reading an absent key inserts
it with the default value) is modelled explicitly by accessD, which
returns both the value read and the updated mapping.
-/
import Mathlib

namespace ChannelAnalysis

/-! ## Count tables (Regex_Grouping.py)

`count_totals` in the source is `defaultdict(lambda: defaultdict(int))`:
trajectory id (a float) -> state id (a regex index, a natural number) ->
count.  We embed it as an insertion-ordered association list. -/

/-- Inner mapping of a count table: state id -> count, insertion ordered. -/
abbrev InnerCounts := List (ℕ × ℕ)

/-- A count table: trajectory id -> inner mapping, insertion ordered. -/
abbrev CountTable := List (ℚ × InnerCounts)

/-- Plain read of a `defaultdict(int)`: absent keys read as `0`. -/
def countD (d : InnerCounts) (k : ℕ) : ℕ :=
  (List.lookup k d).getD 0

/-- A `defaultdict(int)` read *with its side effect*: reading an absent key
appends it with value `0`.  Returns the value read and the updated map. -/
def accessD (d : InnerCounts) (k : ℕ) : ℕ × InnerCounts :=
  match List.lookup k d with
  | some v => (v, d)
  | none => (0, d ++ [(k, 0)])

/-- `sum(count_dict.values())`. -/
def sumCounts (d : InnerCounts) : ℕ :=
  (d.map Prod.snd).sum

/-- All state ids occurring anywhere in the table (the list comprehension
`[traj for count_dict in count_totals.values() for traj in count_dict]`). -/
def allStateIds (T : CountTable) : List ℕ :=
  T.flatMap (fun td => td.2.map Prod.fst)

/-- `max_ions = max(allStateIds)`; Python `max` of an empty sequence raises
ValueError, hence `none` on an empty table. -/
def maxStateId (T : CountTable) : Option ℕ :=
  match allStateIds T with
  | [] => none
  | k :: ks => some (ks.foldl max k)

/-- The errors `count_totals_to_percents` can raise: `max` of an empty
sequence (ValueError), the failing length assert (the configuration
error), and float division by zero for a zero-total trajectory. -/
inductive AggError where
  | valueError
  | assertError
  | zeroDivisionError
deriving DecidableEq

/-- One per-trajectory output line `[traj_id] + percents + [weighted avg]`
(`temp_line + [temp_average]` in the source). -/
structure PercentRow where
  traj : ℚ
  percents : List ℚ
  wavg : ℚ
deriving DecidableEq

/-- The result of the aggregation: the per-trajectory rows, the MEAN row,
and the count table as it stands after the iteration (the source mutates
it in place through defaultdict reads; we pass the state explicitly). -/
structure PercentOutput where
  rows : List PercentRow
  meanRow : List ℚ
  table : CountTable
deriving DecidableEq

/-- The inner per-trajectory loop
`for traj_index in range(max_ions+1): count_dict[traj_index]/traj_total_lines`,
threading the defaultdict state: each read may append a zero-count key. -/
def trajLoop (total : ℚ) : List ℕ → InnerCounts → List ℚ × InnerCounts
  | [], d => ([], d)
  | k :: ks, d =>
    let vd := accessD d k
    let rest := trajLoop total ks vd.2
    ((vd.1 : ℚ) / total :: rest.1, rest.2)

/-- Processing of one trajectory: its percent row (including the weighted
average `sum(occupancy*ion_count for ... in zip(temp_line[1:], num_ions_map))`)
and its updated inner mapping. -/
def processTraj (maxIons : ℕ) (wmap : List ℤ) (td : ℚ × InnerCounts) :
    PercentRow × (ℚ × InnerCounts) :=
  let total : ℚ := (sumCounts td.2 : ℕ)
  let pd := trajLoop total (List.range (maxIons + 1)) td.2
  let wavg := (pd.1.zip wmap).foldl (fun a pw => a + pw.1 * (pw.2 : ℚ)) 0
  (⟨td.1, pd.1, wavg⟩, (td.1, pd.2))

/-- `mean` of a list of rationals (`numpy.mean`). -/
def listMean (l : List ℚ) : ℚ :=
  l.sum / l.length

/-- `count_totals_to_percents` (Regex_Grouping.py, lines 71-121), up to the
per-trajectory rows, the mutated table and the MEAN row.  The STDERR row
needs a real square root and is defined separately (`stderrRow` below).
Order of failure matches the source: `max` of an empty id set first, then
the length assert, then the first division by a zero trajectory total. -/
def count_totals_to_percents (T : CountTable) (num_ions_map : List ℤ) :
    Except AggError PercentOutput :=
  match maxStateId T with
  | none => .error .valueError
  | some maxIons =>
    let wmap : List ℤ :=
      if num_ions_map.isEmpty then (List.range (maxIons + 1)).map Int.ofNat
      else num_ions_map
    if wmap.length = maxIons + 1 then
      if T.any (fun td => sumCounts td.2 == 0) then .error .zeroDivisionError
      else
        let processed := T.map (processTraj maxIons wmap)
        let rows := processed.map Prod.fst
        let meanRow := (List.range (maxIons + 2)).map (fun i =>
          if i = maxIons + 1 then listMean (rows.map PercentRow.wavg)
          else listMean (rows.map (fun r => r.percents.getD i 0)))
        .ok ⟨rows, meanRow, processed.map Prod.snd⟩
    else .error .assertError

/-- The weight map the aggregation actually uses: the supplied one, or the
identity sequence `range(max_ions+1)` when the supplied one is empty
(`if not num_ions_map` in the source treats an empty map as absent). -/
def effectiveWeights (T : CountTable) (num_ions_map : List ℤ) : List ℤ :=
  if num_ions_map.isEmpty then
    (List.range ((maxStateId T).getD 0 + 1)).map Int.ofNat
  else num_ions_map

/-- Rows of a successful aggregation, `[]` on error. -/
def okRows (e : Except AggError PercentOutput) : List PercentRow :=
  match e with
  | .ok o => o.rows
  | .error _ => []

/-- The count table after a successful aggregation, `dflt` on error. -/
def okTable (e : Except AggError PercentOutput) (dflt : CountTable) : CountTable :=
  match e with
  | .ok o => o.table
  | .error _ => dflt

/-- Whether an aggregation succeeded. -/
def isOkE (e : Except AggError PercentOutput) : Bool :=
  match e with
  | .ok _ => true
  | .error _ => false

/-- `scipy.stats.sem` (standard error of the mean, ddof = 1). -/
noncomputable def sem (l : List ℚ) : ℝ :=
  Real.sqrt ((l.map (fun x => ((x : ℝ) - (listMean l : ℝ)) ^ 2)).sum /
    ((l.length : ℝ) - 1)) / Real.sqrt (l.length : ℝ)

/-- The STDERR row of the output table (defined separately from
`count_totals_to_percents` because it lives in ℝ). -/
noncomputable def stderrRow (o : PercentOutput) (maxIons : ℕ) : List ℝ :=
  (List.range (maxIons + 2)).map (fun i =>
    if i = maxIons + 1 then sem (o.rows.map PercentRow.wavg)
    else sem (o.rows.map (fun r => r.percents.getD i 0)))

/-! ## regex_counter (Regex_Grouping.py, lines 44-61) -/

/-- `count_totals[traj_id][regex_state] += 1` on the inner mapping: bump an
existing key in place or append the key with count 1. -/
def bumpInner (d : InnerCounts) (k : ℕ) : InnerCounts :=
  match d with
  | [] => [(k, 1)]
  | kv :: rest =>
    if kv.1 = k then (kv.1, kv.2 + 1) :: rest else kv :: bumpInner rest k

/-- `count_totals[traj_id][regex_state] += 1` on the table: the outer
defaultdict creates the trajectory entry when absent. -/
def bumpTable (T : CountTable) (t : ℚ) (k : ℕ) : CountTable :=
  match T with
  | [] => [(t, [(k, 1)])]
  | td :: rest =>
    if td.1 = t then (td.1, bumpInner td.2 k) :: rest
    else td :: bumpTable rest t k

/-- The count table built by `regex_counter`:
`for line, regex_state in zip(data_floats, data_regex_ids): ...` —
`zip` silently truncates to the shorter of the two lists. -/
def regex_counter_table (data_floats : List (List ℚ))
    (data_regex : List (String × ℕ)) (traj_col : ℕ) : CountTable :=
  let data_regex_ids := data_regex.map Prod.snd
  (data_floats.zip data_regex_ids).foldl
    (fun T ls => bumpTable T (ls.1.getD traj_col 0) ls.2) []

/-- `regex_counter` itself returns the aggregated percents of the table it
builds. -/
def regex_counter (data_floats : List (List ℚ))
    (data_regex : List (String × ℕ)) (traj_col : ℕ)
    (num_ions_map : List ℤ) : Except AggError PercentOutput :=
  count_totals_to_percents (regex_counter_table data_floats data_regex traj_col)
    num_ions_map

/-- Sum of every count in a table. -/
def totalTableCount (T : CountTable) : ℕ :=
  (T.map (fun td => sumCounts td.2)).sum

/-! ## Histograms.py -/

/-- Column pooling shared by `compute_rotamer_histogram` and
`compute_rotamer_rotamer_histogram`:
`for line in data_lines: vals.extend([line[col] for col in cols])`. -/
def pooledVals (data_lines : List (List ℚ)) (cols : List ℕ) : List ℚ :=
  data_lines.flatMap (fun line => cols.map (fun c => line.getD c 0))

/-- Bin index assigned by `numpy.histogram` with `bins = b` over
`range = [lo, hi]`: values outside `[lo, hi]` fall in no bin, every bin is
half-open except the last, which is closed (a value equal to `hi` lands in
bin `b - 1`). -/
def histBin (lo hi : ℚ) (b : ℕ) (v : ℚ) : Option ℕ :=
  if v < lo ∨ hi < v then none
  else if hi ≤ v then some (b - 1)
  else some (Int.toNat ⌊(v - lo) * b / (hi - lo)⌋)

/-- The bin counts of `numpy.histogram(vals, range=[lo,hi], bins=b,
normed=False)`. -/
def histCounts (lo hi : ℚ) (b : ℕ) (vals : List ℚ) : List ℕ :=
  (List.range b).map (fun i =>
    (vals.filter (fun v => histBin lo hi b v == some i)).length)

/-- The bin edge array of `numpy.histogram` (length `b + 1`). -/
def binEdges (lo hi : ℚ) (b : ℕ) : List ℚ :=
  (List.range (b + 1)).map (fun i => lo + (hi - lo) * i / b)

/-- `compute_rotamer_histogram` (Histograms.py, lines 57-72): pool the
requested columns of every line into one value list and histogram it
(unnormalized).  The optional text output is an I/O side effect outside
this embedding. -/
def compute_rotamer_histogram (data_lines : List (List ℚ)) (dihedral_cols : List ℕ)
    (histmin histmax : ℚ) (histbins : ℕ) : List ℕ × List ℚ :=
  let dihedral_vals := pooledVals data_lines dihedral_cols
  (histCounts histmin histmax histbins dihedral_vals,
   binEdges histmin histmax histbins)

/-- The normalized joint histogram
`histogram2d(xs, ys, range=[[lo,hi],[lo,hi]], bins=[b,b], normed=True)`:
cell (i, j) holds `count / (N * dx * dy)` where `N` is the sample count
and `dx = dy = (hi - lo)/b`. -/
def histogram2d_normed (xs ys : List ℚ) (lo hi : ℚ) (b : ℕ) : List (List ℚ) :=
  let pairs := xs.zip ys
  let area : ℚ := ((hi - lo) / b) * ((hi - lo) / b)
  (List.range b).map (fun i => (List.range b).map (fun j =>
    ((pairs.filter (fun p =>
      histBin lo hi b p.1 == some i && histBin lo hi b p.2 == some j)).length : ℚ) /
      ((xs.length : ℚ) * area)))

/-- The probability grid `compute_rotamer_rotamer_histogram` builds before
the free-energy transform. -/
def rotamerGrid (data_lines : List (List ℚ)) (chi1_cols chi2_cols : List ℕ)
    (histmin histmax : ℚ) (histbins : ℕ) : List (List ℚ) :=
  histogram2d_normed (pooledVals data_lines chi1_cols)
    (pooledVals data_lines chi2_cols) histmin histmax histbins

/-- Python `min` over a nonempty list of reals (junk value 0 on `[]`, where
the source would raise ValueError). -/
noncomputable def listMin : List ℝ → ℝ
  | [] => 0
  | x :: xs => xs.foldl min x

/-- The cells with non-zero probability, flattened in row-major order
(`histo[high_val_indices]` with `high_val_indices = histo > 0.0`). -/
def positiveProbs (grid : List (List ℚ)) : List ℚ :=
  grid.flatten.filter (fun p => decide (0 < p))

/-- First overwrite pass of the transform:
`histo[low] = max_eng; histo[high] = -kBT*log(histo[high])`. -/
noncomputable def energyOfProb (kBT maxEng : ℝ) (p : ℚ) : ℝ :=
  if p ≤ 0 then maxEng else -kBT * Real.log (p : ℝ)

/-- `min_val = min(histo[high_val_indices])`, taken after the first pass,
i.e. the minimum energy over the non-zero-probability cells. -/
noncomputable def surfaceMinVal (kBT maxEng : ℝ) (grid : List (List ℚ)) : ℝ :=
  listMin ((positiveProbs grid).map (energyOfProb kBT maxEng))

/-- Final value of one cell of probability `p`:
zero-probability cells keep the ceiling `max_eng`; the others are shifted
by `histo[high] = histo[high] - abs(min_val)`. -/
noncomputable def surfaceCell (kBT maxEng : ℝ) (grid : List (List ℚ)) (p : ℚ) : ℝ :=
  if p ≤ 0 then maxEng
  else energyOfProb kBT maxEng p - abs (surfaceMinVal kBT maxEng grid)

/-- The free-energy surface obtained from a probability grid. -/
noncomputable def freeEnergySurface (kBT maxEng : ℝ) (grid : List (List ℚ)) :
    List (List ℝ) :=
  grid.map (fun row_ => row_.map (surfaceCell kBT maxEng grid))

/-- `compute_rotamer_rotamer_histogram` (Histograms.py, lines 74-111):
pool the chi1 and chi2 columns, build the normalized 2D histogram, apply
the free-energy transform.  The optional text output is an I/O side
effect outside this embedding. -/
noncomputable def compute_rotamer_rotamer_histogram (data_lines : List (List ℚ))
    (chi1_cols chi2_cols : List ℕ) (kBT maxEng : ℝ)
    (histmin histmax : ℚ) (histbins : ℕ) :
    List (List ℝ) × List ℚ × List ℚ :=
  (freeEnergySurface kBT maxEng
     (rotamerGrid data_lines chi1_cols chi2_cols histmin histmax histbins),
   binEdges histmin histmax histbins,
   binEdges histmin histmax histbins)

/-! ## compute_dihedral_timeseries (Histograms.py, lines 30-52)

The two `defaultdict(dict)` results (trajectory id -> series index ->
list of values) are embedded as functions returning the accumulated list,
`[]` for never-touched keys: the source initializes an absent key with
`[first value]`, which coincides with appending to `[]`. -/

/-- One line of the loop body: for every enumerated series index, append
`line[col]` to the dihedral map and `line[0]` to the time map, under the
trajectory key `line[traj_col]`. -/
def timeseriesStep (dihedral_cols : List ℕ) (traj_col : ℕ)
    (acc : (ℚ → ℕ → List ℚ) × (ℚ → ℕ → List ℚ)) (line : List ℚ) :
    (ℚ → ℕ → List ℚ) × (ℚ → ℕ → List ℚ) :=
  (fun t s =>
    if t = line.getD traj_col 0 ∧ s < dihedral_cols.length then
      acc.1 t s ++ [line.getD (dihedral_cols.getD s 0) 0]
    else acc.1 t s,
   fun t s =>
    if t = line.getD traj_col 0 ∧ s < dihedral_cols.length then
      acc.2 t s ++ [line.getD 0 0]
    else acc.2 t s)

/-- `compute_dihedral_timeseries`: returns
`(dict(dihedral_per_traj), dict(time_per_traj))`. -/
def compute_dihedral_timeseries (data_lines : List (List ℚ))
    (dihedral_cols : List ℕ) (traj_col : ℕ) :
    (ℚ → ℕ → List ℚ) × (ℚ → ℕ → List ℚ) :=
  data_lines.foldl (timeseriesStep dihedral_cols traj_col)
    (fun _ _ => [], fun _ _ => [])

/-! ## Association-list lemmas -/

theorem countD_nil (k : ℕ) : countD [] k = 0 := rfl

theorem countD_cons (a v : ℕ) (d : InnerCounts) (k : ℕ) :
    countD ((a, v) :: d) k = if k = a then v else countD d k := by
  by_cases h : k = a
  · simp [countD, List.lookup, h]
  · rw [countD, List.lookup, show (k == a) = false from beq_eq_false_iff_ne.mpr h,
      if_neg h]
    rfl

theorem countD_eq_zero_of_not_mem (d : InnerCounts) (k : ℕ)
    (h : k ∉ d.map Prod.fst) : countD d k = 0 := by
  induction d with
  | nil => rfl
  | cons kv rest ih =>
    obtain ⟨a, v⟩ := kv
    simp only [List.map_cons, List.mem_cons] at h
    push_neg at h
    rw [countD_cons]
    simp [h.1, ih h.2]

theorem countD_all_zero (zs : InnerCounts) (hz : ∀ z ∈ zs, z.2 = 0) (j : ℕ) :
    countD zs j = 0 := by
  induction zs with
  | nil => rfl
  | cons z rest ih =>
    obtain ⟨a, v⟩ := z
    rw [countD_cons]
    have hv : v = 0 := hz (a, v) (by simp)
    have hr : countD rest j = 0 := ih (fun z hzm => hz z (by simp [hzm]))
    simp [hv, hr]

theorem countD_append_zeros (d zs : InnerCounts) (hz : ∀ z ∈ zs, z.2 = 0) (j : ℕ) :
    countD (d ++ zs) j = countD d j := by
  induction d with
  | nil => simpa using countD_all_zero zs hz j
  | cons kv rest ih =>
    obtain ⟨a, v⟩ := kv
    rw [List.cons_append, countD_cons, countD_cons, ih]

theorem accessD_fst (d : InnerCounts) (k : ℕ) : (accessD d k).1 = countD d k := by
  unfold accessD countD
  cases h : List.lookup k d <;> simp [h]

theorem accessD_snd_append (d : InnerCounts) (k : ℕ) :
    ∃ zs, (accessD d k).2 = d ++ zs ∧ ∀ z ∈ zs, z.2 = 0 := by
  unfold accessD
  cases h : List.lookup k d with
  | some v => exact ⟨[], by simp, by simp⟩
  | none => exact ⟨[(k, 0)], rfl, by simp⟩

theorem countD_accessD_snd (d : InnerCounts) (k j : ℕ) :
    countD (accessD d k).2 j = countD d j := by
  obtain ⟨zs, hzs, hz⟩ := accessD_snd_append d k
  rw [hzs, countD_append_zeros d zs hz]

/-! ## trajLoop lemmas -/

theorem trajLoop_fst (total : ℚ) (ks : List ℕ) (d : InnerCounts) :
    (trajLoop total ks d).1 = ks.map (fun k => (countD d k : ℚ) / total) := by
  induction ks generalizing d with
  | nil => rfl
  | cons k ks ih =>
    simp only [trajLoop, List.map_cons, accessD_fst]
    rw [ih]
    simp only [countD_accessD_snd]

theorem trajLoop_snd (total : ℚ) (ks : List ℕ) (d : InnerCounts) :
    ∃ zs, (trajLoop total ks d).2 = d ++ zs ∧ ∀ z ∈ zs, z.2 = 0 := by
  induction ks generalizing d with
  | nil => exact ⟨[], by simp [trajLoop], by simp⟩
  | cons k ks ih =>
    obtain ⟨zs₀, h0, hz0⟩ := accessD_snd_append d k
    obtain ⟨zs₁, h1, hz1⟩ := ih (accessD d k).2
    refine ⟨zs₀ ++ zs₁, ?_, ?_⟩
    · simp only [trajLoop]
      rw [h1, h0, List.append_assoc]
    · intro z hz
      rcases List.mem_append.mp hz with h | h
      exacts [hz0 z h, hz1 z h]

/-! ## Summation lemmas -/

theorem sum_map_range {M : Type} [AddCommMonoid M] (f : ℕ → M) (n : ℕ) :
    ((List.range n).map f).sum = ∑ i in Finset.range n, f i := by
  induction n with
  | zero => simp
  | succ n ih =>
    rw [List.range_succ, List.map_append, List.sum_append, Finset.sum_range_succ, ih]
    simp

theorem sum_countD_range (d : InnerCounts) (n : ℕ)
    (hnd : (d.map Prod.fst).Nodup) (hlt : ∀ k ∈ d.map Prod.fst, k < n) :
    ∑ i in Finset.range n, countD d i = sumCounts d := by
  induction d with
  | nil => simp [countD_nil, sumCounts]
  | cons kv rest ih =>
    obtain ⟨a, v⟩ := kv
    simp only [List.map_cons, List.nodup_cons] at hnd
    have ha : a < n := hlt a (by simp)
    have hrest : ∀ k ∈ rest.map Prod.fst, k < n := fun k hk => hlt k (by simp [hk])
    have hz : countD rest a = 0 := countD_eq_zero_of_not_mem rest a hnd.1
    calc ∑ i in Finset.range n, countD ((a, v) :: rest) i
        = ∑ i in Finset.range n, (countD rest i + if i = a then v else 0) := by
          refine Finset.sum_congr rfl (fun i _ => ?_)
          rw [countD_cons]
          by_cases h : i = a
          · simp [h, hz]
          · simp [h]
      _ = sumCounts rest + v := by
          rw [Finset.sum_add_distrib, ih hnd.2 hrest,
            Finset.sum_ite_eq' (Finset.range n) a (fun _ => v)]
          simp [ha]
      _ = sumCounts ((a, v) :: rest) := by
          simp [sumCounts]
          omega

theorem foldl_zip_dot (ps : List ℚ) (ws : List ℤ) (a : ℚ) :
    (ps.zip ws).foldl (fun acc pw => acc + pw.1 * (pw.2 : ℚ)) a =
      a + ∑ i in Finset.range (min ps.length ws.length),
        ps.getD i 0 * ((ws.getD i 0 : ℤ) : ℚ) := by
  induction ps generalizing ws a with
  | nil => simp
  | cons p ps ih =>
    cases ws with
    | nil => simp
    | cons x ws =>
      simp only [List.zip_cons_cons, List.foldl_cons, List.length_cons,
        Nat.succ_min_succ, Finset.sum_range_succ', List.getD_cons_succ,
        List.getD_cons_zero]
      rw [ih]
      ring

/-! ## maxStateId lemmas -/

theorem le_foldl_max (l : List ℕ) (a : ℕ) : a ≤ l.foldl max a := by
  induction l generalizing a with
  | nil => simp
  | cons x xs ih => exact le_trans (le_max_left a x) (ih (max a x))

theorem mem_le_foldl_max (l : List ℕ) (a x : ℕ) (hx : x ∈ l) : x ≤ l.foldl max a := by
  induction l generalizing a with
  | nil => cases hx
  | cons y ys ih =>
    rcases List.mem_cons.mp hx with h | h
    · subst h
      exact le_trans (le_max_right a x) (le_foldl_max ys (max a x))
    · exact ih (max a y) h

theorem maxStateId_bound (T : CountTable) (m : ℕ) (h : maxStateId T = some m) :
    ∀ k ∈ allStateIds T, k ≤ m := by
  unfold maxStateId at h
  intro k hk
  cases hl : allStateIds T with
  | nil => rw [hl] at hk; cases hk
  | cons k0 ks =>
    rw [hl] at h hk
    injection h with h
    subst h
    rcases List.mem_cons.mp hk with h | h
    · subst h
      exact le_foldl_max ks k
    · exact mem_le_foldl_max ks k0 k h

theorem mem_allStateIds (T : CountTable) (td : ℚ × InnerCounts) (k : ℕ)
    (htd : td ∈ T) (hk : k ∈ td.2.map Prod.fst) : k ∈ allStateIds T :=
  List.mem_flatMap.mpr ⟨td, htd, hk⟩

/-! ## Shape of a successful aggregation -/

theorem effectiveWeights_eq (T : CountTable) (w : List ℤ) (m : ℕ)
    (hm : maxStateId T = some m) :
    effectiveWeights T w =
      if w.isEmpty then (List.range (m + 1)).map Int.ofNat else w := by
  unfold effectiveWeights
  rw [hm]
  rfl

theorem count_totals_ok_cases (T : CountTable) (w : List ℤ) (o : PercentOutput)
    (h : count_totals_to_percents T w = .ok o) :
    ∃ m, maxStateId T = some m ∧
      (effectiveWeights T w).length = m + 1 ∧
      (∀ td ∈ T, sumCounts td.2 ≠ 0) ∧
      o.rows = T.map (fun td => (processTraj m (effectiveWeights T w) td).1) ∧
      o.table = T.map (fun td => (processTraj m (effectiveWeights T w) td).2) := by
  simp only [count_totals_to_percents] at h
  cases hm : maxStateId T with
  | none => rw [hm] at h; cases h
  | some m =>
    rw [hm] at h
    simp only at h
    rw [← effectiveWeights_eq T w m hm] at h
    refine ⟨m, rfl, ?_⟩
    by_cases hlen : (effectiveWeights T w).length = m + 1
    · rw [if_pos hlen] at h
      by_cases hany : T.any (fun td => sumCounts td.2 == 0) = true
      · rw [if_pos hany] at h; cases h
      · rw [if_neg hany] at h
        injection h with h
        subst h
        refine ⟨hlen, ?_, by simp [List.map_map], by simp [List.map_map]⟩
        intro td htd
        have := (List.any_eq_false (l := T)).mp (Bool.not_eq_true _ |>.mp hany) td htd
        simpa using this
    · rw [if_neg hlen] at h; cases h

theorem mem_okRows_destruct (T : CountTable) (w : List ℤ) (r : PercentRow)
    (hr : r ∈ okRows (count_totals_to_percents T w)) :
    ∃ m td, maxStateId T = some m ∧ td ∈ T ∧
      (effectiveWeights T w).length = m + 1 ∧ sumCounts td.2 ≠ 0 ∧
      r = (processTraj m (effectiveWeights T w) td).1 := by
  cases h : count_totals_to_percents T w with
  | error e =>
    rw [h] at hr
    exact absurd hr (List.not_mem_nil r)
  | ok o =>
    rw [h] at hr
    have hr : r ∈ o.rows := hr
    obtain ⟨m, hm, hlen, hnz, hrows, _⟩ := count_totals_ok_cases T w o h
    rw [hrows] at hr
    obtain ⟨td, htd, hr⟩ := List.mem_map.mp hr
    exact ⟨m, td, hm, htd, hlen, hnz td htd, hr.symm⟩

theorem no_zero_div (T : CountTable) (w : List ℤ)
    (hT : ∀ td ∈ T, sumCounts td.2 ≠ 0) :
    count_totals_to_percents T w ≠ .error .zeroDivisionError := by
  simp only [count_totals_to_percents]
  cases hm : maxStateId T with
  | none => simp
  | some m =>
    simp only
    have hany : T.any (fun td => sumCounts td.2 == 0) = false := by
      rw [List.any_eq_false]
      intro td htd
      simp [hT td htd]
    rw [hany]
    split <;> split <;> simp

/-! ## bumpTable lemmas (regex_counter) -/

theorem bumpInner_sum (d : InnerCounts) (k : ℕ) :
    sumCounts (bumpInner d k) = sumCounts d + 1 := by
  induction d with
  | nil => rfl
  | cons kv rest ih =>
    by_cases h : kv.1 = k
    · simp [bumpInner, h, sumCounts]
      omega
    · simp only [bumpInner, if_neg h]
      simp [sumCounts] at ih ⊢
      omega

theorem bumpTable_pos (T : CountTable) (t : ℚ) (k : ℕ)
    (hT : ∀ e ∈ T, 1 ≤ sumCounts e.2) :
    ∀ e ∈ bumpTable T t k, 1 ≤ sumCounts e.2 := by
  induction T with
  | nil =>
    intro e he
    simp [bumpTable] at he
    subst he
    simp [sumCounts]
  | cons td rest ih =>
    intro e he
    by_cases h : td.1 = t
    · rw [bumpTable, if_pos h] at he
      rcases List.mem_cons.mp he with he | he
      · subst he
        simp [bumpInner_sum]
      · exact hT e (List.mem_cons_of_mem _ he)
    · rw [bumpTable, if_neg h] at he
      rcases List.mem_cons.mp he with he | he
      · subst he
        exact hT e (List.mem_cons_self _ _)
      · exact ih (fun e' he' => hT e' (List.mem_cons_of_mem _ he')) e he

theorem bumpTable_total (T : CountTable) (t : ℚ) (k : ℕ) :
    totalTableCount (bumpTable T t k) = totalTableCount T + 1 := by
  induction T with
  | nil => rfl
  | cons td rest ih =>
    by_cases h : td.1 = t
    · simp [bumpTable, h, totalTableCount, bumpInner_sum]
      omega
    · simp only [bumpTable, if_neg h]
      simp [totalTableCount] at ih ⊢
      omega

theorem counter_fold_pos (l : List (List ℚ × ℕ)) (tcol : ℕ) (T : CountTable)
    (hT : ∀ e ∈ T, 1 ≤ sumCounts e.2) :
    ∀ e ∈ l.foldl (fun T ls => bumpTable T (ls.1.getD tcol 0) ls.2) T,
      1 ≤ sumCounts e.2 := by
  induction l generalizing T with
  | nil => exact hT
  | cons x xs ih => exact ih _ (bumpTable_pos T _ _ hT)

theorem counter_fold_total (l : List (List ℚ × ℕ)) (tcol : ℕ) (T : CountTable) :
    totalTableCount (l.foldl (fun T ls => bumpTable T (ls.1.getD tcol 0) ls.2) T) =
      totalTableCount T + l.length := by
  induction l generalizing T with
  | nil => simp
  | cons x xs ih =>
    rw [List.foldl_cons, ih, bumpTable_total, List.length_cons]
    omega

/-! ## Claims about count_totals_to_percents and regex_counter -/

/-- C1: for every count table (with dict-like inner mappings, i.e. distinct
state-id keys) in which each trajectory has a positive total observation
count, every per-trajectory row emitted by count_totals_to_percents has
its per-state percentages summing exactly to 1 over exact rationals,
since each percentage is that state's count divided by the trajectory's
total. -/
theorem C1_percent_rows_sum_to_one (T : CountTable) (w : List ℤ) (r : PercentRow)
    (hWF : ∀ td ∈ T, (td.2.map Prod.fst).Nodup)
    (hpos : ∀ td ∈ T, 0 < sumCounts td.2)
    (hr : r ∈ okRows (count_totals_to_percents T w)) :
    r.percents.sum = 1 := by
  obtain ⟨m, td, hm, htd, hlen, hnz, hre⟩ := mem_okRows_destruct T w r hr
  subst hre
  have hkeys : ∀ k ∈ td.2.map Prod.fst, k < m + 1 := fun k hk =>
    Nat.lt_succ_of_le (maxStateId_bound T m hm k (mem_allStateIds T td k htd hk))
  have htotal : ((sumCounts td.2 : ℕ) : ℚ) ≠ 0 := Nat.cast_ne_zero.mpr hnz
  show (processTraj m (effectiveWeights T w) td).1.percents.sum = 1
  simp only [processTraj]
  rw [trajLoop_fst, sum_map_range, ← Finset.sum_div, ← Nat.cast_sum,
    sum_countD_range td.2 (m + 1) (hWF td htd) hkeys]
  exact div_self htotal

theorem C1_witness :
    (∀ td ∈ ([((1:ℚ), [(0, 1), (1, 1)])] : CountTable), (td.2.map Prod.fst).Nodup) ∧
    (∀ td ∈ ([((1:ℚ), [(0, 1), (1, 1)])] : CountTable), 0 < sumCounts td.2) ∧
    (⟨1, [1/2, 1/2], 1/2⟩ : PercentRow) ∈
      okRows (count_totals_to_percents [((1:ℚ), [(0, 1), (1, 1)])] []) ∧
    (⟨1, [1/2, 1/2], 1/2⟩ : PercentRow).percents.sum = 1 :=
  ⟨by decide, by decide,
   by
     norm_num [okRows, count_totals_to_percents, maxStateId, allStateIds,
       effectiveWeights, processTraj, trajLoop, accessD, countD, sumCounts,
       listMean, List.lookup, show ((1:ℕ) == 0) = false from rfl,
       show ((0:ℕ) == 0) = true from rfl, show ((1:ℕ) == 1) = true from rfl,
       List.range_succ, List.zip_cons_cons, List.foldl_cons],
   C1_percent_rows_sum_to_one [((1:ℚ), [(0, 1), (1, 1)])] []
     ⟨1, [1/2, 1/2], 1/2⟩ (by decide) (by decide)
     (by
       norm_num [okRows, count_totals_to_percents, maxStateId, allStateIds,
         effectiveWeights, processTraj, trajLoop, accessD, countD, sumCounts,
         listMean, List.lookup, show ((1:ℕ) == 0) = false from rfl,
         show ((0:ℕ) == 0) = true from rfl, show ((1:ℕ) == 1) = true from rfl,
         List.range_succ, List.zip_cons_cons, List.foldl_cons])⟩

/-- C2 (amended): for every count table with a largest observed state id
m and every supplied NON-EMPTY weight map whose length differs from m+1,
count_totals_to_percents raises the configuration (assert) error, and the
Except result carries no output rows at all.  (The original claim fails
for a supplied empty weight map: `if not num_ions_map` treats it as
absent and substitutes the identity default instead of raising — see
C2_counterexample.) -/
theorem C2_nonempty_weight_mismatch_raises (T : CountTable) (w : List ℤ) (m : ℕ)
    (hm : maxStateId T = some m) (hne : w ≠ []) (hlen : w.length ≠ m + 1) :
    count_totals_to_percents T w = .error .assertError := by
  have hempty : w.isEmpty = false := by
    cases w with
    | nil => exact absurd rfl hne
    | cons a l => rfl
  simp only [count_totals_to_percents, hm, hempty]
  simp [hlen]

theorem C2_counterexample :
    maxStateId [((1:ℚ), [(0, 1)])] = some 0 ∧
    ([] : List ℤ).length ≠ 0 + 1 ∧
    isOkE (count_totals_to_percents [((1:ℚ), [(0, 1)])] []) = true := by
  decide

theorem C2_witness :
    maxStateId [((1:ℚ), [(0, 1)])] = some 0 ∧
    ([5, 6] : List ℤ) ≠ [] ∧
    ([5, 6] : List ℤ).length ≠ 0 + 1 ∧
    count_totals_to_percents [((1:ℚ), [(0, 1)])] [5, 6] = .error .assertError :=
  ⟨by decide, by decide, by decide,
   C2_nonempty_weight_mismatch_raises [((1:ℚ), [(0, 1)])] [5, 6] 0 (by decide)
     (by decide) (by decide)⟩

/-- C3: every emitted per-trajectory row carries max-id+1 percentages, and
its final weighted-average column equals the sum over state ids
0..max-id of (that row's percentage at the id times the weight map entry
at the id), the weight map being the supplied one or, when none (an
empty list) is supplied, the identity sequence 0..max-id; the value is
recomputable from the percentages of the same emitted row. -/
theorem C3_weighted_average_recomputable (T : CountTable) (w : List ℤ)
    (r : PercentRow) (hr : r ∈ okRows (count_totals_to_percents T w)) :
    r.percents.length = (effectiveWeights T w).length ∧
    r.wavg = ∑ i in Finset.range (effectiveWeights T w).length,
      r.percents.getD i 0 * ((effectiveWeights T w).getD i 0 : ℚ) := by
  obtain ⟨m, td, hm, htd, hlen, hnz, hre⟩ := mem_okRows_destruct T w r hr
  subst hre
  have h1 : (trajLoop ((sumCounts td.2 : ℕ) : ℚ) (List.range (m + 1)) td.2).1.length
      = m + 1 := by
    rw [trajLoop_fst]
    simp
  constructor
  · simp only [processTraj]
    rw [h1, hlen]
  · simp only [processTraj]
    rw [foldl_zip_dot, h1, hlen, min_self, zero_add]

theorem C3_witness :
    (⟨1, [1], 0⟩ : PercentRow) ∈
      okRows (count_totals_to_percents [((1:ℚ), [(0, 1)])] []) ∧
    ((⟨1, [1], 0⟩ : PercentRow).percents.length =
       (effectiveWeights [((1:ℚ), [(0, 1)])] []).length ∧
     (⟨1, [1], 0⟩ : PercentRow).wavg =
       ∑ i in Finset.range (effectiveWeights [((1:ℚ), [(0, 1)])] []).length,
         (⟨1, [1], 0⟩ : PercentRow).percents.getD i 0 *
           ((effectiveWeights [((1:ℚ), [(0, 1)])] []).getD i 0 : ℚ)) :=
  ⟨by
     norm_num [okRows, count_totals_to_percents, maxStateId, allStateIds,
       effectiveWeights, processTraj, trajLoop, accessD, countD, sumCounts,
       listMean, List.lookup, show ((0:ℕ) == 0) = true from rfl,
       List.range_succ, List.zip_cons_cons, List.foldl_cons],
   C3_weighted_average_recomputable [((1:ℚ), [(0, 1)])] [] ⟨1, [1], 0⟩
     (by
       norm_num [okRows, count_totals_to_percents, maxStateId, allStateIds,
         effectiveWeights, processTraj, trajLoop, accessD, countD, sumCounts,
         listMean, List.lookup, show ((0:ℕ) == 0) = true from rfl,
         List.range_succ, List.zip_cons_cons, List.foldl_cons])⟩

/-- C8 (amended): a successful count_totals_to_percents run never changes
a stored count, never adds or removes a trajectory key, and preserves
the value of every state-id lookup (absent ids still read as zero); but
the count table is NOT left unchanged: each trajectory's inner mapping
is extended in place by zero-count entries for the state ids in
0..max-id that it lacked, through the defaultdict reads — see
C8_counterexample for the mutation the original claim excludes. -/
theorem C8_append_only_zero_entries (T : CountTable) (w : List ℤ)
    (hok : isOkE (count_totals_to_percents T w) = true) :
    (okTable (count_totals_to_percents T w) T).map Prod.fst = T.map Prod.fst ∧
    ∀ td ∈ T, ∃ zs,
      (td.1, td.2 ++ zs) ∈ okTable (count_totals_to_percents T w) T ∧
      (∀ z ∈ zs, z.2 = 0) ∧
      ∀ k, countD (td.2 ++ zs) k = countD td.2 k := by
  cases h : count_totals_to_percents T w with
  | error e =>
    rw [h] at hok
    exact Bool.noConfusion hok
  | ok o =>
    obtain ⟨m, hm, hlen, hnz, _, htable⟩ := count_totals_ok_cases T w o h
    constructor
    · show o.table.map Prod.fst = T.map Prod.fst
      rw [htable]
      simp [List.map_map, processTraj]
    · intro td htd
      obtain ⟨zs, hzs, hz⟩ := trajLoop_snd ((sumCounts td.2 : ℕ) : ℚ)
        (List.range (m + 1)) td.2
      refine ⟨zs, ?_, hz, fun k => countD_append_zeros td.2 zs hz k⟩
      show (td.1, td.2 ++ zs) ∈ o.table
      rw [htable]
      have he : (td.1, td.2 ++ zs) = (processTraj m (effectiveWeights T w) td).2 := by
        simp only [processTraj]
        rw [hzs]
      rw [he]
      exact List.mem_map_of_mem _ htd

theorem C8_counterexample :
    okTable (count_totals_to_percents [((1:ℚ), [(1, 2)])] []) [((1:ℚ), [(1, 2)])] ≠
      [((1:ℚ), [(1, 2)])] := by
  decide

theorem C8_witness :
    isOkE (count_totals_to_percents [((1:ℚ), [(0, 2)])] []) = true ∧
    ((okTable (count_totals_to_percents [((1:ℚ), [(0, 2)])] [])
        [((1:ℚ), [(0, 2)])]).map Prod.fst =
      ([((1:ℚ), [(0, 2)])] : CountTable).map Prod.fst ∧
     ∀ td ∈ ([((1:ℚ), [(0, 2)])] : CountTable), ∃ zs,
       (td.1, td.2 ++ zs) ∈
         okTable (count_totals_to_percents [((1:ℚ), [(0, 2)])] [])
           [((1:ℚ), [(0, 2)])] ∧
       (∀ z ∈ zs, z.2 = 0) ∧
       ∀ k, countD (td.2 ++ zs) k = countD td.2 k) :=
  ⟨by decide, C8_append_only_zero_entries [((1:ℚ), [(0, 2)])] [] (by decide)⟩

/-- C9: every trajectory key of a table produced by regex_counter was
created by recording at least one paired observation, so its total count
is at least 1; consequently the aggregation applied to such a table
never hits the division-by-zero error. -/
theorem C9_counter_totals_positive (data_floats : List (List ℚ))
    (data_regex : List (String × ℕ)) (traj_col : ℕ) (w : List ℤ)
    (t : ℚ) (d : InnerCounts)
    (hmem : (t, d) ∈ regex_counter_table data_floats data_regex traj_col) :
    1 ≤ sumCounts d ∧
    regex_counter data_floats data_regex traj_col w ≠ .error .zeroDivisionError := by
  have hall : ∀ e ∈ regex_counter_table data_floats data_regex traj_col,
      1 ≤ sumCounts e.2 := by
    unfold regex_counter_table
    exact counter_fold_pos _ _ [] (fun e he => absurd he (List.not_mem_nil e))
  exact ⟨hall (t, d) hmem,
    no_zero_div _ w (fun td htd => Nat.one_le_iff_ne_zero.mp (hall td htd))⟩

theorem C9_witness :
    ((3:ℚ), [(0, 1)]) ∈ regex_counter_table [[(3:ℚ)]] [("a", 0)] 0 ∧
    (1 ≤ sumCounts [(0, 1)] ∧
     regex_counter [[(3:ℚ)]] [("a", 0)] 0 [0] ≠ .error .zeroDivisionError) :=
  ⟨by decide,
   C9_counter_totals_positive [[(3:ℚ)]] [("a", 0)] 0 [0] 3 [(0, 1)] (by decide)⟩

/-- C10: on an observation-row list of length n and a classification-pair
list of length m, regex_counter does not fail: the paired `zip`
iteration silently truncates to the first min(n, m) elements, so the sum
of all counts in the table it builds is exactly min(n, m). -/
theorem C10_zip_truncates_to_min (data_floats : List (List ℚ))
    (data_regex : List (String × ℕ)) (traj_col : ℕ) :
    totalTableCount (regex_counter_table data_floats data_regex traj_col) =
      min data_floats.length data_regex.length := by
  unfold regex_counter_table
  rw [counter_fold_total]
  simp [totalTableCount, List.length_zip]

/-! ## Histogram lemmas -/

theorem foldl_min_le_init (l : List ℝ) (a : ℝ) : l.foldl min a ≤ a := by
  induction l generalizing a with
  | nil => simp
  | cons x xs ih => exact le_trans (ih (min a x)) (min_le_left a x)

theorem foldl_min_le_mem (l : List ℝ) (a x : ℝ) (hx : x ∈ l) : l.foldl min a ≤ x := by
  induction l generalizing a with
  | nil => cases hx
  | cons y ys ih =>
    rcases List.mem_cons.mp hx with h | h
    · subst h
      exact le_trans (foldl_min_le_init ys (min a x)) (min_le_right a x)
    · exact ih (min a y) h

theorem listMin_le_mem (l : List ℝ) (x : ℝ) (hx : x ∈ l) : listMin l ≤ x := by
  cases l with
  | nil => cases hx
  | cons y ys =>
    rcases List.mem_cons.mp hx with h | h
    · subst h
      exact foldl_min_le_init ys x
    · exact foldl_min_le_mem ys y x h

theorem freeEnergySurface_get (kBT maxEng : ℝ) (grid : List (List ℚ)) (i j : ℕ)
    (r : List ℚ) (p : ℚ) (hi : grid[i]? = some r) (hj : r[j]? = some p) :
    ∃ s, (freeEnergySurface kBT maxEng grid)[i]? = some s ∧
      s[j]? = some (surfaceCell kBT maxEng grid p) := by
  refine ⟨r.map (surfaceCell kBT maxEng grid), ?_, ?_⟩
  · rw [freeEnergySurface, List.getElem?_map, hi]
    rfl
  · rw [List.getElem?_map, hj]
    rfl

theorem mem_positiveProbs (grid : List (List ℚ)) (r : List ℚ) (p : ℚ)
    (hr : r ∈ grid) (hp : p ∈ r) (hpos : 0 < p) : p ∈ positiveProbs grid := by
  rw [positiveProbs, List.mem_filter]
  exact ⟨List.mem_flatten.mpr ⟨r, hr, hp⟩, by simpa using hpos⟩

theorem pos_of_mem_positiveProbs (grid : List (List ℚ)) (p : ℚ)
    (hp : p ∈ positiveProbs grid) : 0 < p := by
  rw [positiveProbs, List.mem_filter] at hp
  simpa using hp.2

theorem histBin_of_inside (lo hi : ℚ) (b : ℕ) (v : ℚ) (hb : 0 < b)
    (hlo : lo ≤ v) (hhi : v < hi) :
    histBin lo hi b v = some (Int.toNat ⌊(v - lo) * b / (hi - lo)⌋) ∧
    Int.toNat ⌊(v - lo) * b / (hi - lo)⌋ < b := by
  have hpos : (0:ℚ) < hi - lo := by linarith
  have hbq : (0:ℚ) < (b:ℚ) := by exact_mod_cast hb
  have hx0 : (0:ℚ) ≤ (v - lo) * b / (hi - lo) :=
    div_nonneg (mul_nonneg (by linarith) (le_of_lt hbq)) (le_of_lt hpos)
  have hxb : (v - lo) * b / (hi - lo) < b := by
    rw [div_lt_iff₀ hpos]
    calc (v - lo) * b < (hi - lo) * b :=
          mul_lt_mul_of_pos_right (by linarith) hbq
      _ = b * (hi - lo) := mul_comm _ _
  have hfl : 0 ≤ ⌊(v - lo) * b / (hi - lo)⌋ := Int.floor_nonneg.mpr hx0
  have hfb : ⌊(v - lo) * b / (hi - lo)⌋ < (b:ℤ) := Int.floor_lt.mpr (by exact_mod_cast hxb)
  refine ⟨?_, by omega⟩
  rw [histBin, if_neg (by simp only [not_or, not_lt]; exact ⟨hlo, le_of_lt hhi⟩),
    if_neg (not_le.mpr hhi)]

theorem histCounts_sum (lo hi : ℚ) (b : ℕ) (vals : List ℚ)
    (hin : ∀ v ∈ vals, ∃ i, histBin lo hi b v = some i ∧ i < b) :
    (histCounts lo hi b vals).sum = vals.length := by
  rw [histCounts, sum_map_range]
  induction vals with
  | nil => simp
  | cons v vs ih =>
    obtain ⟨iv, hiv, hivb⟩ := hin v (by simp)
    have hvs := fun u hu => hin u (List.mem_cons_of_mem v hu)
    have hsplit : ∀ i,
        ((v :: vs).filter (fun u => histBin lo hi b u == some i)).length =
          (vs.filter (fun u => histBin lo hi b u == some i)).length +
            (if i = iv then 1 else 0) := by
      intro i
      by_cases h : i = iv
      · subst h
        rw [List.filter_cons_of_pos (by rw [hiv, beq_iff_eq])]
        simp
      · rw [List.filter_cons_of_neg (by
          rw [hiv]
          simp only [beq_iff_eq, Option.some.injEq]
          exact fun he => h he.symm)]
        simp [h]
    calc ∑ i in Finset.range b,
          ((v :: vs).filter (fun u => histBin lo hi b u == some i)).length
        = ∑ i in Finset.range b,
            ((vs.filter (fun u => histBin lo hi b u == some i)).length +
              (if i = iv then 1 else 0)) :=
          Finset.sum_congr rfl (fun i _ => hsplit i)
      _ = vs.length + 1 := by
          rw [Finset.sum_add_distrib, ih hvs,
            Finset.sum_ite_eq' (Finset.range b) iv (fun _ => 1)]
          simp [hivb]
      _ = (v :: vs).length := by simp

/-! ## Timeseries lemma -/

theorem timeseries_foldl (data : List (List ℚ)) (cols : List ℕ) (tcol : ℕ)
    (acc : (ℚ → ℕ → List ℚ) × (ℚ → ℕ → List ℚ)) (t : ℚ) (s : ℕ)
    (hs : s < cols.length) :
    (data.foldl (timeseriesStep cols tcol) acc).1 t s =
      acc.1 t s ++ (data.filter (fun l => l.getD tcol 0 == t)).map
        (fun l => l.getD (cols.getD s 0) 0) ∧
    (data.foldl (timeseriesStep cols tcol) acc).2 t s =
      acc.2 t s ++ (data.filter (fun l => l.getD tcol 0 == t)).map
        (fun l => l.getD 0 0) := by
  induction data generalizing acc with
  | nil => simp
  | cons line rest ih =>
    rw [List.foldl_cons]
    obtain ⟨ih1, ih2⟩ := ih (timeseriesStep cols tcol acc line)
    by_cases h : line.getD tcol 0 = t
    · have hcond : t = line.getD tcol 0 ∧ s < cols.length := ⟨h.symm, hs⟩
      rw [List.filter_cons_of_pos (by rw [beq_iff_eq]; exact h)]
      constructor
      · rw [ih1, List.map_cons]
        simp only [timeseriesStep, if_pos hcond]
        simp [List.append_assoc]
      · rw [ih2, List.map_cons]
        simp only [timeseriesStep, if_pos hcond]
        simp [List.append_assoc]
    · have hcond : ¬(t = line.getD tcol 0 ∧ s < cols.length) := by
        intro hc
        exact h hc.1.symm
      rw [List.filter_cons_of_neg (by rw [beq_iff_eq]; exact h)]
      constructor
      · rw [ih1]
        simp only [timeseriesStep, if_neg hcond]
      · rw [ih2]
        simp only [timeseriesStep, if_neg hcond]

/-! ## Claims about Histograms.py -/

/-- C4: in the surface produced by compute_rotamer_rotamer_histogram
(assuming at least one non-zero-probability cell, the domain on which the
source's `min` is defined), every cell whose joint probability is zero
equals the ceiling max_eng exactly — the minimum-shift step touches only
non-zero-probability cells — so the surface has no undefined or
negative-infinity cells; and every non-zero-probability cell is at least
the global minimum over the shifted non-zero-probability cells. -/
theorem C4_zero_cells_keep_ceiling (data_lines : List (List ℚ))
    (chi1_cols chi2_cols : List ℕ) (kBT maxEng : ℝ) (histmin histmax : ℚ)
    (histbins : ℕ) (i j : ℕ) (r : List ℚ) (p : ℚ)
    (hne : positiveProbs
      (rotamerGrid data_lines chi1_cols chi2_cols histmin histmax histbins) ≠ [])
    (hi : (rotamerGrid data_lines chi1_cols chi2_cols histmin histmax histbins)[i]?
      = some r)
    (hj : r[j]? = some p) :
    ∃ s, (compute_rotamer_rotamer_histogram data_lines chi1_cols chi2_cols
        kBT maxEng histmin histmax histbins).1[i]? = some s ∧
      s[j]? = some (surfaceCell kBT maxEng
        (rotamerGrid data_lines chi1_cols chi2_cols histmin histmax histbins) p) ∧
      (p ≤ 0 → surfaceCell kBT maxEng
        (rotamerGrid data_lines chi1_cols chi2_cols histmin histmax histbins) p
          = maxEng) ∧
      (0 < p → listMin ((positiveProbs
          (rotamerGrid data_lines chi1_cols chi2_cols histmin histmax histbins)).map
          (surfaceCell kBT maxEng
            (rotamerGrid data_lines chi1_cols chi2_cols histmin histmax histbins)))
        ≤ surfaceCell kBT maxEng
          (rotamerGrid data_lines chi1_cols chi2_cols histmin histmax histbins) p) := by
  obtain ⟨s, hs, hsj⟩ := freeEnergySurface_get kBT maxEng
    (rotamerGrid data_lines chi1_cols chi2_cols histmin histmax histbins) i j r p hi hj
  refine ⟨s, hs, hsj, fun hp => by rw [surfaceCell, if_pos hp], fun hp => ?_⟩
  exact listMin_le_mem _ _ (List.mem_map_of_mem _
    (mem_positiveProbs _ r p (List.getElem?_mem hi) (List.getElem?_mem hj) hp))

theorem C4_witness :
    positiveProbs (rotamerGrid [[0, 0]] [0] [1] 0 2 2) ≠ [] ∧
    (rotamerGrid [[0, 0]] [0] [1] 0 2 2)[0]? = some [1, 0] ∧
    ([(1:ℚ), 0])[1]? = some 0 ∧
    (∃ s, (compute_rotamer_rotamer_histogram [[0, 0]] [0] [1] 1 7 0 2 2).1[0]?
        = some s ∧
      s[1]? = some (surfaceCell 1 7 (rotamerGrid [[0, 0]] [0] [1] 0 2 2) 0) ∧
      ((0:ℚ) ≤ 0 → surfaceCell 1 7 (rotamerGrid [[0, 0]] [0] [1] 0 2 2) 0 = 7) ∧
      ((0:ℚ) < 0 → listMin ((positiveProbs (rotamerGrid [[0, 0]] [0] [1] 0 2 2)).map
          (surfaceCell 1 7 (rotamerGrid [[0, 0]] [0] [1] 0 2 2)))
        ≤ surfaceCell 1 7 (rotamerGrid [[0, 0]] [0] [1] 0 2 2) 0)) :=
  ⟨by
     norm_num [rotamerGrid, histogram2d_normed, pooledVals, histBin, positiveProbs,
       List.range_succ, Int.floor_zero],
   by
     norm_num [rotamerGrid, histogram2d_normed, pooledVals, histBin,
       List.range_succ, Int.floor_zero],
   by decide,
   C4_zero_cells_keep_ceiling [[0, 0]] [0] [1] 1 7 0 2 2 0 1 [1, 0] 0
     (by
       norm_num [rotamerGrid, histogram2d_normed, pooledVals, histBin, positiveProbs,
         List.range_succ, Int.floor_zero])
     (by
       norm_num [rotamerGrid, histogram2d_normed, pooledVals, histBin,
         List.range_succ, Int.floor_zero])
     (by decide)⟩

/-- C5: every cell of the normalized 2D histogram with non-zero
probability p is assigned (−kBT · ln p) − |m|, where m is the minimum of
−kBT · ln q over all non-zero-probability cells q: the shift subtracts
the absolute value of the minimum, not the signed minimum. -/
theorem C5_shift_subtracts_abs_min (data_lines : List (List ℚ))
    (chi1_cols chi2_cols : List ℕ) (kBT maxEng : ℝ) (histmin histmax : ℚ)
    (histbins : ℕ) (i j : ℕ) (r : List ℚ) (p : ℚ)
    (hi : (rotamerGrid data_lines chi1_cols chi2_cols histmin histmax histbins)[i]?
      = some r)
    (hj : r[j]? = some p) (hp : 0 < p) :
    ∃ s, (compute_rotamer_rotamer_histogram data_lines chi1_cols chi2_cols
        kBT maxEng histmin histmax histbins).1[i]? = some s ∧
      s[j]? = some (-kBT * Real.log (p : ℝ) -
        abs (listMin ((positiveProbs
          (rotamerGrid data_lines chi1_cols chi2_cols histmin histmax histbins)).map
          (fun q : ℚ => -kBT * Real.log (q : ℝ))))) := by
  obtain ⟨s, hs, hsj⟩ := freeEnergySurface_get kBT maxEng
    (rotamerGrid data_lines chi1_cols chi2_cols histmin histmax histbins) i j r p hi hj
  refine ⟨s, hs, ?_⟩
  rw [hsj]
  have hcell : surfaceCell kBT maxEng
      (rotamerGrid data_lines chi1_cols chi2_cols histmin histmax histbins) p =
      -kBT * Real.log (p : ℝ) -
        abs (listMin ((positiveProbs
          (rotamerGrid data_lines chi1_cols chi2_cols histmin histmax histbins)).map
          (fun q : ℚ => -kBT * Real.log (q : ℝ)))) := by
    rw [surfaceCell, if_neg (not_le.mpr hp), energyOfProb, if_neg (not_le.mpr hp),
      surfaceMinVal]
    have hmap : (positiveProbs
        (rotamerGrid data_lines chi1_cols chi2_cols histmin histmax histbins)).map
          (energyOfProb kBT maxEng) =
        (positiveProbs
          (rotamerGrid data_lines chi1_cols chi2_cols histmin histmax histbins)).map
          (fun q : ℚ => -kBT * Real.log (q : ℝ)) :=
      List.map_congr_left (fun q hq => by
        rw [energyOfProb, if_neg (not_le.mpr (pos_of_mem_positiveProbs _ q hq))])
    rw [hmap]
  rw [hcell]

theorem C5_witness :
    (rotamerGrid [[0, 0]] [0] [1] 0 2 2)[0]? = some [1, 0] ∧
    ([(1:ℚ), 0])[0]? = some 1 ∧ (0:ℚ) < 1 ∧
    (∃ s, (compute_rotamer_rotamer_histogram [[0, 0]] [0] [1] 1 7 0 2 2).1[0]?
        = some s ∧
      s[0]? = some (-1 * Real.log ((1:ℚ) : ℝ) -
        abs (listMin ((positiveProbs (rotamerGrid [[0, 0]] [0] [1] 0 2 2)).map
          (fun q : ℚ => -1 * Real.log (q : ℝ)))))) :=
  ⟨by
     norm_num [rotamerGrid, histogram2d_normed, pooledVals, histBin,
       List.range_succ, Int.floor_zero],
   by decide, by decide,
   C5_shift_subtracts_abs_min [[0, 0]] [0] [1] 1 7 0 2 2 0 0 [1, 0] 1
     (by
       norm_num [rotamerGrid, histogram2d_normed, pooledVals, histBin,
         List.range_succ, Int.floor_zero])
     (by decide) (by decide)⟩

/-- C6 (amended): compute_rotamer_histogram pools the values of all
requested columns into one distribution and produces histbins bin
counts; when every pooled value lies inside the half-open range
[histmin, histmax) the counts sum to the number of pooled values; a
value exactly equal to histmax is NOT excluded: numpy's closed final
bin places it in bin histbins−1 (see C6_counterexample). -/
theorem C6_bin_count_totals (data_lines : List (List ℚ)) (dihedral_cols : List ℕ)
    (histmin histmax : ℚ) (histbins : ℕ) (hb : 0 < histbins)
    (hlh : histmin ≤ histmax)
    (hin : ∀ v ∈ pooledVals data_lines dihedral_cols, histmin ≤ v ∧ v < histmax) :
    (compute_rotamer_histogram data_lines dihedral_cols histmin histmax
        histbins).1.length = histbins ∧
    (compute_rotamer_histogram data_lines dihedral_cols histmin histmax
        histbins).1.sum = (pooledVals data_lines dihedral_cols).length ∧
    histBin histmin histmax histbins histmax = some (histbins - 1) := by
  refine ⟨by simp [compute_rotamer_histogram, histCounts], ?_, ?_⟩
  · exact histCounts_sum histmin histmax histbins
      (pooledVals data_lines dihedral_cols)
      (fun v hv => ⟨_,
        (histBin_of_inside histmin histmax histbins v hb (hin v hv).1 (hin v hv).2).1,
        (histBin_of_inside histmin histmax histbins v hb (hin v hv).1 (hin v hv).2).2⟩)
  · rw [histBin,
      if_neg (by simp only [not_or, not_lt]; exact ⟨hlh, le_refl histmax⟩),
      if_pos (le_refl histmax)]

theorem C6_counterexample :
    (compute_rotamer_histogram [[(360:ℚ)]] [0] 0 360 4).1 = [0, 0, 0, 1] ∧
    (compute_rotamer_histogram [[(360:ℚ)]] [0] 0 360 4).1.sum ≠ 0 := by
  decide

theorem C6_witness :
    0 < 4 ∧ (0:ℚ) ≤ 360 ∧
    (∀ v ∈ pooledVals [[(90:ℚ)]] [0], (0:ℚ) ≤ v ∧ v < 360) ∧
    ((compute_rotamer_histogram [[(90:ℚ)]] [0] 0 360 4).1.length = 4 ∧
     (compute_rotamer_histogram [[(90:ℚ)]] [0] 0 360 4).1.sum =
       (pooledVals [[(90:ℚ)]] [0]).length ∧
     histBin 0 360 4 360 = some (4 - 1)) :=
  ⟨by decide, by decide, by decide,
   C6_bin_count_totals [[(90:ℚ)]] [0] 0 360 4 (by decide) (by decide) (by decide)⟩

/-- C7: compute_dihedral_timeseries maps each trajectory t and series
index s to exactly the values at the series' column taken from t's rows
in input-stream order, and in parallel maps (t, s) to those rows' values
at column 0 — always the first column — as the time list; no rows are
dropped, reordered, or aggregated. -/
theorem C7_series_and_time_maps (data_lines : List (List ℚ))
    (dihedral_cols : List ℕ) (traj_col : ℕ) (t : ℚ) (s : ℕ)
    (hs : s < dihedral_cols.length) :
    (compute_dihedral_timeseries data_lines dihedral_cols traj_col).1 t s =
      (data_lines.filter (fun l => l.getD traj_col 0 == t)).map
        (fun l => l.getD (dihedral_cols.getD s 0) 0) ∧
    (compute_dihedral_timeseries data_lines dihedral_cols traj_col).2 t s =
      (data_lines.filter (fun l => l.getD traj_col 0 == t)).map
        (fun l => l.getD 0 0) := by
  obtain ⟨h1, h2⟩ := timeseries_foldl data_lines dihedral_cols traj_col
    (fun _ _ => [], fun _ _ => []) t s hs
  rw [compute_dihedral_timeseries] at *
  exact ⟨by rw [h1]; rfl, by rw [h2]; rfl⟩

theorem C7_witness :
    0 < ([1] : List ℕ).length ∧
    ((compute_dihedral_timeseries [[(10:ℚ), 5], [10, 6], [11, 7]] [1] 0).1 10 0 =
       (([[(10:ℚ), 5], [10, 6], [11, 7]].filter
         (fun l => l.getD 0 0 == (10:ℚ))).map (fun l => l.getD (([1]:List ℕ).getD 0 0) 0)) ∧
     (compute_dihedral_timeseries [[(10:ℚ), 5], [10, 6], [11, 7]] [1] 0).2 10 0 =
       (([[(10:ℚ), 5], [10, 6], [11, 7]].filter
         (fun l => l.getD 0 0 == (10:ℚ))).map (fun l => l.getD 0 0))) :=
  ⟨by decide,
   C7_series_and_time_maps [[(10:ℚ), 5], [10, 6], [11, 7]] [1] 0 10 0 (by decide)⟩

end ChannelAnalysis
